import Mathlib

/-!
Verification development for the clix sandbox runner.

The Go source is shallowly embedded: Go strings are Lean String values
(manipulated through their underlying List Char), effectful operating-system
calls (os.Getwd, os.UserHomeDir, os.UserCacheDir, os.MkdirAll, git and docker
subprocess invocations, image pulling) are abstracted as explicit environment
records holding the result each call would produce, and filesystem writes made
by tar extraction are logged as an explicit action list.  Numeric file modes
are Nat.  All definitions are executable.
-/

deriving instance DecidableEq for Except

namespace Clix

/-! ## List Char string toolkit

Models of the Go standard library string and path functions used by the
sources: strings.HasPrefix, strings.Contains, strings.ReplaceAll,
strings.TrimSpace, path/filepath.Clean, path/filepath.Join, path/filepath.Dir.
-/

/-- Boolean list-prefix test (model of strings.HasPrefix on char lists). -/
def pfxOf : List Char → List Char → Bool
  | [], _ => true
  | _ :: _, [] => false
  | a :: as, b :: bs => a = b && pfxOf as bs

/-- Boolean substring test (model of strings.Contains on char lists). -/
def containsSub (pat : List Char) : List Char → Bool
  | [] => pfxOf pat []
  | c :: cs => pfxOf pat (c :: cs) || containsSub pat cs

/-- The proposition that pat occurs as a contiguous substring of s. -/
def SubstrP (pat s : List Char) : Prop := ∃ p q, s = p ++ pat ++ q

/-- Fueled worker for replaceAllL; fuel is always at least the input length. -/
def replaceAllGo (pat rep : List Char) : Nat → List Char → List Char
  | _, [] => []
  | 0, s => s
  | fuel + 1, c :: cs =>
    if pat ≠ [] ∧ pfxOf pat (c :: cs) = true then
      rep ++ replaceAllGo pat rep fuel ((c :: cs).drop pat.length)
    else
      c :: replaceAllGo pat rep fuel cs

/-- Model of strings.ReplaceAll on char lists: replaces the leftmost,
non-overlapping occurrences of pat by rep.  (Go inserts rep at every position
when pat is empty; the sources only ever replace nonempty literals, and for an
empty pat this model returns the input unchanged.) -/
def replaceAllL (pat rep s : List Char) : List Char :=
  if pat = [] then s else replaceAllGo pat rep s.length s

/-- Go White_Space code points recognised by unicode.IsSpace. -/
def goIsSpace (c : Char) : Bool :=
  c.val = 9 || c.val = 10 || c.val = 11 || c.val = 12 || c.val = 13 ||
  c.val = 32 || c.val = 0x85 || c.val = 0xA0 || c.val = 0x1680 ||
  (0x2000 ≤ c.val && c.val ≤ 0x200A) || c.val = 0x2028 || c.val = 0x2029 ||
  c.val = 0x202F || c.val = 0x205F || c.val = 0x3000

/-- Model of strings.TrimSpace on char lists. -/
def trimSpaceL (s : List Char) : List Char :=
  ((s.dropWhile goIsSpace).reverse.dropWhile goIsSpace).reverse

/-- Splits a char list at every slash; adjacent slashes yield empty groups,
so the original list is the groups interleaved with single slashes. -/
def splitComps : List Char → List (List Char)
  | [] => [[]]
  | c :: cs =>
    if c = '/' then [] :: splitComps cs
    else
      match splitComps cs with
      | [] => [[c]]
      | g :: gs => (c :: g) :: gs

/-- The lexical stack underlying filepath.Clean: empty and dot components are
dropped, dotdot pops (or, in a relative path with nothing left to pop, is
kept), everything else is pushed.  The stack grows to the left and is
reversed by the caller. -/
def cleanStackR (rooted : Bool) : List (List Char) → List (List Char) → List (List Char)
  | st, [] => st
  | st, c :: cs =>
    if c = [] ∨ c = ['.'] then cleanStackR rooted st cs
    else if c = ['.', '.'] then
      if rooted then cleanStackR rooted st.tail cs
      else
        match st with
        | [] => cleanStackR rooted [['.', '.']] cs
        | l :: st' =>
          if l = ['.', '.'] then cleanStackR rooted (c :: l :: st') cs
          else cleanStackR rooted st' cs
    else cleanStackR rooted (c :: st) cs

/-- Model of path/filepath.Clean (Unix rules) on char lists. -/
def cleanL (s : List Char) : List Char :=
  match s with
  | [] => ['.']
  | c0 :: _ =>
    let rooted := c0 == '/'
    match (cleanStackR rooted [] (splitComps s)).reverse with
    | [] => if rooted then ['/'] else ['.']
    | g :: gs => (if rooted then ['/'] else []) ++ List.intercalate ['/'] (g :: gs)

/-- Model of strings.HasPrefix. -/
def goStartsWith (s pre : String) : Bool := pfxOf pre.data s.data

/-- Model of strings.Contains. -/
def goContains (s sub : String) : Bool := containsSub sub.data s.data

/-- Model of strings.ReplaceAll. -/
def goReplaceAll (s old new : String) : String :=
  String.mk (replaceAllL old.data new.data s.data)

/-- Model of strings.TrimSpace. -/
def goTrimSpace (s : String) : String := String.mk (trimSpaceL s.data)

/-- Model of path/filepath.Clean. -/
def goClean (s : String) : String := String.mk (cleanL s.data)

/-- Model of path/filepath.Join: leading empty elements are skipped, the rest
are joined with slashes and the result is cleaned; all-empty input gives the
empty string. -/
def goJoinPath (elems : List String) : String :=
  match elems.dropWhile (fun e => e = "") with
  | [] => ""
  | es => String.mk (cleanL (List.intercalate ['/'] (es.map String.data)))

/-- Model of path/filepath.Dir: everything up to and including the last slash,
cleaned; a list without slashes gives the dot directory. -/
def goDir (s : String) : String :=
  String.mk (cleanL ((s.data.reverse.dropWhile (fun c => c ≠ '/')).reverse))

/-- Byte slicing s[n:] as used by the Go sources; it is only applied after an
ASCII prefix of length n has been checked, where byte and char offsets agree. -/
def strDrop (s : String) (n : Nat) : String := String.mk (s.data.drop n)

/-- The character list of the cache token without its leading open brace
(the closing brace written as its hex escape). -/
def tokTail : List Char := ['c', 'a', 'c', 'h', 'e', 'D', 'i', 'r', '\x7d']

/-! ## Data model (main.go): Script, Mount, EnvVar, GoConfig -/

structure Mount where
  hostPath : String
  sandboxPath : String
  deriving DecidableEq

structure EnvVar where
  name : String
  value : String
  deriving DecidableEq

structure GoConfig where
  run : String
  version : String
  deriving DecidableEq

structure Script where
  go : Option GoConfig
  image : String
  entrypoint : String
  mounts : List Mount
  env : List EnvVar
  deriving DecidableEq

/-! ## Operating-system environment

Results of the ambient calls made by the mount resolver and the docker
argument builder.  gitRootAtCwd is the trimmed output of findGitRoot at the
current working directory (the only place the sources call it), imageSHA the
result getImageSHAFn would produce for the script image, and mkdirCacheOk
whether os.MkdirAll on the cache directory succeeds. -/

structure OSEnv where
  getwd : Except String String
  userHomeDir : Except String String
  userCacheDir : Except String String
  mkdirCacheOk : Bool
  gitRootAtCwd : Except String String
  imageSHA : Except String String
  deriving DecidableEq

/-! ## Mount resolver (resolveMounts in the docker sandbox source) -/

inductive ResolveErr where
  | getwdErr (msg : String)
  | homeErr (msg : String)
  | missingDigest
  | userCacheErr (msg : String)
  | mkdirErr
  | gitRootErr (msg : String)
  deriving DecidableEq

/-- The cache-directory condition tested by the source:
strings.Contains(hostPath, "{cacheDir}") or strings.Contains(hostPath, "${cacheDir}"). -/
def hasCacheTok (s : String) : Bool :=
  goContains s "{cacheDir}" || goContains s "${cacheDir}"

/-- Cache-token step of resolveMounts: on a token occurrence, require a digest,
resolve the user cache directory, create it, and substitute first the bare and
then the dollar form of the token by userCache/clix/cache/sha.  (The
deprecation warning printed to stderr is a side effect not modelled.) -/
def substCache (env : OSEnv) (sha : String) (host : String) : Except ResolveErr String :=
  if hasCacheTok host then
    if sha = "" then .error .missingDigest
    else
      match env.userCacheDir with
      | .error e => .error (.userCacheErr e)
      | .ok userCache =>
        let cacheDir := goJoinPath [userCache, "clix", "cache", sha]
        if env.mkdirCacheOk then
          .ok (goReplaceAll (goReplaceAll host "{cacheDir}" cacheDir) "${cacheDir}" cacheDir)
        else .error .mkdirErr
  else .ok host

/-- Git-root sentinel step of resolveMounts. -/
def substGit (env : OSEnv) (host : String) : Except ResolveErr String :=
  if host = "git.repoRoot(cwd)" then
    match env.gitRootAtCwd with
    | .error e => .error (.gitRootErr e)
    | .ok root => .ok root
  else .ok host

/-- Home expansion of the host path: a leading tilde-slash joins the home
directory with the remainder, a bare tilde becomes the home directory. -/
def expandHostTilde (home host : String) : String :=
  if goStartsWith host "~/" then goJoinPath [home, strDrop host 2]
  else if host = "~" then home
  else host

/-- Home expansion of the sandbox path, using the fixed in-container home. -/
def expandSandboxTilde (sb : String) : String :=
  if goStartsWith sb "~/" then "/root/" ++ strDrop sb 2
  else if sb = "~" then "/root"
  else sb

/-- One loop iteration of resolveMounts, in source order: cache token, git
sentinel, host tilde, sandbox tilde, then defaulting an empty sandbox path to
the resolved host path. -/
def resolveOne (env : OSEnv) (home sha : String) (m : Mount) : Except ResolveErr Mount :=
  match substCache env sha m.hostPath with
  | .error e => .error e
  | .ok h1 =>
    match substGit env h1 with
    | .error e => .error e
    | .ok h2 =>
      let h3 := expandHostTilde home h2
      let sb := expandSandboxTilde m.sandboxPath
      .ok ⟨h3, if sb = "" then h3 else sb⟩

/-- The resolveMounts loop body applied left to right; the first failing mount
aborts. -/
def resolveList (env : OSEnv) (home sha : String) : List Mount → Except ResolveErr (List Mount)
  | [] => .ok []
  | m :: ms =>
    match resolveOne env home sha m with
    | .error e => .error e
    | .ok r =>
      match resolveList env home sha ms with
      | .error e => .error e
      | .ok rs => .ok (r :: rs)

/-- Model of resolveMounts: resolves the working directory and home directory
first (either failure aborts), then processes the mounts in order. -/
def resolveMounts (env : OSEnv) (mounts : List Mount) (sha : String) : Except ResolveErr (List Mount) :=
  match env.getwd with
  | .error e => .error (.getwdErr e)
  | .ok _ =>
    match env.userHomeDir with
    | .error e => .error (.homeErr e)
    | .ok home => resolveList env home sha mounts

/-! ## Docker invocation builder (buildDockerArgs) and digest lookup -/

inductive BuildErr where
  | shaErr (msg : String)
  | resolveErr (e : ResolveErr)
  | getwdErr (msg : String)
  deriving DecidableEq

structure BuildOut where
  result : Except BuildErr (List String)
  shaLookedUp : Bool
  deriving DecidableEq

/-- The needsSHA loop of buildDockerArgs: true when some declared mount
references the cache directory. -/
def needsSHA (mounts : List Mount) : Bool := mounts.any fun m => hasCacheTok m.hostPath

/-- Everything buildDockerArgs does after the optional digest lookup. -/
def buildRest (script : Script) (args : List String) (base : List String)
    (sha : String) (env : OSEnv) : Except BuildErr (List String) :=
  match resolveMounts env script.mounts sha with
  | .error e => .error (.resolveErr e)
  | .ok resolved =>
    match env.getwd with
    | .error e => .error (.getwdErr e)
    | .ok cwd =>
      .ok (base
        ++ resolved.flatMap (fun m => ["-v", m.hostPath ++ ":" ++ m.sandboxPath])
        ++ script.env.flatMap (fun e => ["-e", e.name ++ "=" ++ e.value])
        ++ ["-w", cwd]
        ++ (if script.entrypoint ≠ "" then ["--entrypoint", script.entrypoint] else [])
        ++ [script.image] ++ args)

/-- Model of buildDockerArgs; shaLookedUp records whether getImageSHAFn was
invoked. -/
def buildDockerArgs (script : Script) (args : List String) (isTerm : Bool)
    (env : OSEnv) : BuildOut :=
  let base := ["run", "-i"] ++ (if isTerm then ["-t"] else [])
  if needsSHA script.mounts then
    match env.imageSHA with
    | .error e => { result := .error (.shaErr e), shaLookedUp := true }
    | .ok sha => { result := buildRest script args base sha env, shaLookedUp := true }
  else
    { result := buildRest script args base "" env, shaLookedUp := false }

inductive SHAErr where
  | queryFailed (msg : String)
  | imageNotFound
  deriving DecidableEq

/-- Model of getImageSHA, taking the result of the docker images query as an
explicit argument: a failed query is surfaced, empty trimmed output is
image-not-found, and a sha256 prefix is stripped (seven ASCII bytes, hence
seven chars). -/
def getImageSHA (queryOutput : Except String String) : Except SHAErr String :=
  match queryOutput with
  | .error e => .error (.queryFailed e)
  | .ok out =>
    let sha := goTrimSpace out
    if sha = "" then .error .imageNotFound
    else .ok (if goStartsWith sha "sha256:" then strDrop sha 7 else sha)

/-! ## Tar extraction (untar in sandbox_chroot.go)

Filesystem writes are logged as actions; operating-system failures of the
individual writes are abstracted as successes, since the claims under study
concern which writes are attempted and which entries are rejected. -/

structure TarHeader where
  name : String
  typeflag : Char
  linkname : String
  mode : Nat
  deriving DecidableEq

inductive FSAction where
  | mkdirAll (path : String)
  | createFile (path : String)
  | chmod (path : String) (mode : Nat)
  | symlink (target path : String)
  deriving DecidableEq

/-- One iteration of the untar loop: join the destination with the recorded
name, reject when the joined path does not have the cleaned destination as a
string prefix, then dispatch on the type flag (directory 53, regular file 48,
symlink 50 in ASCII); any other flag falls through the switch silently. -/
def untarEntry (dest : String) (h : TarHeader) : Except String (List FSAction) :=
  let path := goJoinPath [dest, h.name]
  if ¬ (goStartsWith path (goClean dest) = true) then
    .error ("illegal file path in image: " ++ path)
  else if h.typeflag = '5' then .ok [.mkdirAll path]
  else if h.typeflag = '0' then
    .ok [.mkdirAll (goDir path), .createFile path, .chmod path h.mode]
  else if h.typeflag = '2' then
    .ok [.mkdirAll (goDir path), .symlink h.linkname path]
  else .ok []

/-- Model of untar over an already-decoded header stream: the performed
actions in order, and the error that aborted the loop if any. -/
def untarRun (dest : String) : List TarHeader → (List FSAction × Option String)
  | [] => ([], none)
  | h :: hs =>
    match untarEntry dest h with
    | .error e => ([], some e)
    | .ok acts =>
      let rest := untarRun dest hs
      (acts ++ rest.1, rest.2)

/-- Spec-side notion of containment used by the path-traversal claim: p lies
within root when it is root itself or sits below root as a directory. -/
def pathContainedIn (root p : String) : Bool :=
  p = root || goStartsWith p (root ++ "/")

/-! ## Chroot sandbox run (ChrootSandbox.Run in sandbox_chroot.go)

Control flow model.  prepareRootFS is abstracted as the provision field of the
environment: ok true is a successful pull-and-unpack into an owned temporary
directory whose cleanup deletes it, ok false a borrowed local directory with a
no-op cleanup, error a provisioning failure.  The Go defer statement runs the
registered cleanup on every return path but not across os.Exit, which the
source invokes to propagate a non-zero child exit status. -/

inductive ChrootErr where
  | imageRequired
  | provisionErr (msg : String)
  | noCommand
  | unsupportedMounts
  | unsupportedEnv
  | runErr (msg : String)
  deriving DecidableEq

/-- The two refusal errors for features the chroot backend does not honor. -/
def isUnsupportedFeature : ChrootErr → Bool
  | .unsupportedMounts => true
  | .unsupportedEnv => true
  | _ => false

inductive CmdOutcome where
  | success
  | exitErr (code : Nat)
  | startErr (msg : String)
  deriving DecidableEq

inductive RunExit where
  | returned (e : Option ChrootErr)
  | exited (code : Nat)
  deriving DecidableEq

structure ChrootEnv where
  provision : Except String Bool
  cmdOutcome : CmdOutcome
  deriving DecidableEq

structure ChrootTrace where
  prepareCalled : Bool
  cmdRun : Bool
  cleanupInvoked : Bool
  exit : RunExit
  deriving DecidableEq

/-- Model of ChrootSandbox.Run: empty image refused; prepareRootFS called
next and its deferred cleanup registered on success; command determination
(entrypoint, else first argument); refusal of mounts and environment
variables; then the child runs, with success returning nil, a non-zero exit
propagated through os.Exit (skipping the deferred cleanup), and a start
failure returned as an error. -/
def chrootRun (script : Script) (args : List String) (env : ChrootEnv) : ChrootTrace :=
  if script.image = "" then
    ⟨false, false, false, .returned (some .imageRequired)⟩
  else
    match env.provision with
    | .error e => ⟨true, false, false, .returned (some (.provisionErr e))⟩
    | .ok _ =>
      if script.entrypoint = "" ∧ args = [] then
        ⟨true, false, true, .returned (some .noCommand)⟩
      else if ¬ (script.mounts = []) then
        ⟨true, false, true, .returned (some .unsupportedMounts)⟩
      else if ¬ (script.env = []) then
        ⟨true, false, true, .returned (some .unsupportedEnv)⟩
      else
        match env.cmdOutcome with
        | .success => ⟨true, true, true, .returned none⟩
        | .exitErr code => ⟨true, true, false, .exited code⟩
        | .startErr m => ⟨true, true, true, .returned (some (.runErr m))⟩

/-! ## Sanity conditions for idempotence

Conditions on the ambient environment under which resolution is idempotent:
the home directory is an absolute path free of the open-brace character, the
computed cache directory likewise, and a resolved git root is neither the
sentinel nor tilde-shaped nor token-bearing.  All are satisfied by any real
operating-system environment. -/

def SaneEnv (env : OSEnv) (sha : String) : Prop :=
  (∀ h, env.userHomeDir = .ok h → h.data.head? = some '/' ∧ '{' ∉ h.data) ∧
  (∀ uc, env.userCacheDir = .ok uc →
    (goJoinPath [uc, "clix", "cache", sha]).data.head? = some '/' ∧
    '{' ∉ (goJoinPath [uc, "clix", "cache", sha]).data) ∧
  (∀ g, env.gitRootAtCwd = .ok g →
    '{' ∉ g.data ∧ g ≠ "git.repoRoot(cwd)" ∧
    goStartsWith g "~/" = false ∧ g ≠ "~")

end Clix

namespace Clix

/-! ## Helper lemmas -/

theorem dropWhile_all_of_eq_nil {p : Char → Bool} {l : List Char}
    (h : l.dropWhile p = []) : ∀ c ∈ l, p c = true := by
  intro c hc
  have : c ∈ l.takeWhile p ++ l.dropWhile p := by
    rw [List.takeWhile_append_dropWhile]; exact hc
  rw [h, List.append_nil] at this
  exact List.mem_takeWhile_imp this

theorem trimSpaceL_eq_nil_iff (s : List Char) :
    trimSpaceL s = [] ↔ s.all goIsSpace = true := by
  unfold trimSpaceL
  rw [List.reverse_eq_nil_iff, List.all_eq_true]
  constructor
  · intro h c hc
    have h1 := dropWhile_all_of_eq_nil h
    by_cases hsp : goIsSpace c = true
    · exact hsp
    · exfalso
      have hd : s.dropWhile goIsSpace ≠ [] := by
        intro hnil
        have := dropWhile_all_of_eq_nil hnil c hc
        exact hsp this
      rcases List.exists_cons_of_ne_nil hd with ⟨a, t, ht⟩
      have ha : goIsSpace a = false := by
        have := List.head?_dropWhile_not goIsSpace s
        rw [ht] at this
        simpa using this
      have : a ∈ (s.dropWhile goIsSpace).reverse := by rw [ht]; simp
      have := h1 a this
      rw [ha] at this
      exact Bool.false_ne_true this
  · intro h
    have hnil : s.dropWhile goIsSpace = [] := by
      rw [List.dropWhile_eq_nil_iff]
      intro x hx; exact h x hx
    rw [hnil]
    simp

theorem string_mk_eq_empty_iff (l : List Char) : String.mk l = "" ↔ l = [] := by
  constructor
  · intro h
    have hd : (String.mk l).data = ("" : String).data := by rw [h]
    simpa using hd
  · intro h; rw [h]

/-- A string with a tilde-slash prefix is not the git sentinel. -/
theorem tilde_ne_gitlit {s : String} (h : goStartsWith s "~/" = true) :
    s ≠ "git.repoRoot(cwd)" := by
  intro he
  rw [he] at h
  exact absurd h (by decide)

/-! ## Claim theorems -/

/-- C1: the zip-slip guard in untar is a raw string-prefix test against the
cleaned destination, so an entry whose joined path is a sibling of the
destination root that merely shares its spelling (here ../destevil joined
onto /tmp/dest, giving /tmp/destevil) is accepted: untar reports no error and
creates the directory even though the path is not contained within the root.
This refutes the claim that every entry escaping the root is rejected. -/
theorem C1_zipslip_sibling_escape :
    untarRun "/tmp/dest" [⟨"../destevil", '5', "", 0⟩] =
      ([.mkdirAll "/tmp/destevil"], none) ∧
    pathContainedIn "/tmp/dest" "/tmp/destevil" = false :=
  ⟨rfl, by decide⟩

/-- C2: when provisioning succeeds with an owned temporary directory and the
child process exits with a non-zero status, ChrootSandbox.Run terminates the
process through os.Exit, which skips the deferred cleanup: the release
function is not invoked on this exit path, refuting the claim that it runs on
every exit path. -/
theorem C2_cleanup_skipped_on_child_exit :
    (⟨.ok true, .exitErr 1⟩ : ChrootEnv).provision = .ok true ∧
    chrootRun ⟨none, "img", "e", [], []⟩ ["a"] ⟨.ok true, .exitErr 1⟩ =
      ⟨true, true, false, .exited 1⟩ :=
  ⟨rfl, rfl⟩

/-- C4: resolveMounts substitutes the bare token first, which consumes the
brace part of a dollar-form token and leaves a literal dollar sign behind:
hostPath dollar-brace-cacheDir-brace/python with digest d0 resolves to
a path beginning with a dollar sign instead of the cache directory
userCache/clix/cache/d0, refuting the claim that the dollar-form token is
substituted with the cache directory. -/
theorem C4_dollar_token_residue :
    resolveMounts ⟨.ok "/cwd", .ok "/home/u", .ok "/uc", true, .ok "/repo", .ok "d0"⟩
      [⟨"${cacheDir}/python", ""⟩] "d0" =
      .ok [⟨"$/uc/clix/cache/d0/python", "$/uc/clix/cache/d0/python"⟩] ∧
    goJoinPath ["/uc", "clix", "cache", "d0"] ++ "/python" = "/uc/clix/cache/d0/python" ∧
    ("$/uc/clix/cache/d0/python" : String) ≠ "/uc/clix/cache/d0/python" :=
  ⟨rfl, rfl, by decide⟩

/-- C3 counterexample: a configuration declaring one mount (with a valid image
and entrypoint) is indeed refused, but only after root-filesystem provisioning
has been attempted: prepareCalled is true, refuting the claim that
prepareRootFS is not called. -/
theorem C3_provision_attempted_before_refusal :
    (chrootRun ⟨none, "img", "e", [⟨"/a", "/b"⟩], []⟩ [] ⟨.ok true, .success⟩).prepareCalled
      = true ∧
    (chrootRun ⟨none, "img", "e", [⟨"/a", "/b"⟩], []⟩ [] ⟨.ok true, .success⟩).exit =
      .returned (some .unsupportedMounts) :=
  ⟨rfl, rfl⟩

/-- C3 (amended): for a configuration with a nonempty image whose provisioning
succeeds and whose command is determinable, declaring a mount or an
environment variable makes ChrootSandbox.Run fail with an unsupported-feature
error without running any command — but prepareRootFS is called first. -/
theorem C3_unsupported_feature_refusal (script : Script) (args : List String)
    (env : ChrootEnv) (owned : Bool)
    (himg : script.image ≠ "") (hprov : env.provision = .ok owned)
    (hcmd : script.entrypoint ≠ "" ∨ args ≠ [])
    (hfeat : script.mounts ≠ [] ∨ script.env ≠ []) :
    (chrootRun script args env).prepareCalled = true ∧
    (chrootRun script args env).cmdRun = false ∧
    ∃ err, (chrootRun script args env).exit = .returned (some err) ∧
      isUnsupportedFeature err = true := by
  have hnc : ¬ (script.entrypoint = "" ∧ args = []) := by
    rintro ⟨h1, h2⟩
    rcases hcmd with h | h
    · exact h h1
    · exact h h2
  by_cases hm : script.mounts = []
  · have he : script.env ≠ [] := by
      rcases hfeat with h | h
      · exact absurd hm h
      · exact h
    unfold chrootRun
    rw [if_neg himg, hprov]
    rw [if_neg hnc, if_neg (by simpa using hm), if_pos (by simpa using he)]
    exact ⟨rfl, rfl, .unsupportedEnv, rfl, rfl⟩
  · unfold chrootRun
    rw [if_neg himg, hprov]
    rw [if_neg hnc, if_pos (by simpa using hm)]
    exact ⟨rfl, rfl, .unsupportedMounts, rfl, rfl⟩

/-- C3 witness. -/
theorem C3_unsupported_feature_refusal_witness :
    (chrootRun ⟨none, "img", "e", [], [⟨"A", "1"⟩]⟩ [] ⟨.ok false, .success⟩).prepareCalled
      = true ∧
    (chrootRun ⟨none, "img", "e", [], [⟨"A", "1"⟩]⟩ [] ⟨.ok false, .success⟩).cmdRun
      = false ∧
    ∃ err, (chrootRun ⟨none, "img", "e", [], [⟨"A", "1"⟩]⟩ []
      ⟨.ok false, .success⟩).exit = .returned (some err) ∧
      isUnsupportedFeature err = true :=
  C3_unsupported_feature_refusal ⟨none, "img", "e", [], [⟨"A", "1"⟩]⟩ []
    ⟨.ok false, .success⟩ false (by decide) rfl (Or.inl (by decide))
    (Or.inr (by decide))

/-- C10 counterexample: an entry whose type flag is none of directory, regular
file or symlink, but whose recorded name escapes the destination, is not
silently skipped: the path check precedes the type dispatch, so untar reports
an error for it. -/
theorem C10_unknown_type_with_bad_path_errors :
    ((('6' : Char) ≠ '5') ∧ (('6' : Char) ≠ '0') ∧ (('6' : Char) ≠ '2')) ∧
    untarRun "/tmp/d" [⟨"../evil", '6', "", 0⟩] =
      ([], some "illegal file path in image: /tmp/evil") :=
  ⟨by decide, rfl⟩

/-- C10 (amended): an entry whose type flag is none of directory, regular file
or symlink, and whose joined path passes the containment prefix check, is
silently skipped: no action is taken for it, no error is reported, and
extraction continues with the remaining entries. -/
theorem C10_skip_unknown_entry (dest : String) (e : TarHeader)
    (rest : List TarHeader)
    (ht5 : e.typeflag ≠ '5') (ht0 : e.typeflag ≠ '0') (ht2 : e.typeflag ≠ '2')
    (hok : goStartsWith (goJoinPath [dest, e.name]) (goClean dest) = true) :
    untarRun dest (e :: rest) = untarRun dest rest := by
  show (match untarEntry dest e with
    | .error er => ([], some er)
    | .ok acts => (acts ++ (untarRun dest rest).1, (untarRun dest rest).2))
    = untarRun dest rest
  unfold untarEntry
  rw [if_neg (by simp [hok]), if_neg ht5, if_neg ht0, if_neg ht2]
  simp

theorem buildRest_ok (script : Script) (args base : List String) (sha : String)
    (env : OSEnv) (cwd : String) (resolved : List Mount)
    (hres : resolveMounts env script.mounts sha = .ok resolved)
    (hcwd : env.getwd = .ok cwd) :
    buildRest script args base sha env = .ok (base
      ++ resolved.flatMap (fun m => ["-v", m.hostPath ++ ":" ++ m.sandboxPath])
      ++ script.env.flatMap (fun e => ["-e", e.name ++ "=" ++ e.value])
      ++ ["-w", cwd]
      ++ (if script.entrypoint ≠ "" then ["--entrypoint", script.entrypoint] else [])
      ++ [script.image] ++ args) := by
  unfold buildRest
  rw [hres, hcwd]

/-- C5: buildDockerArgs produces exactly the ordered vector: the run
subcommand with the input-attachment flag always and the pseudo-terminal flag
exactly when interactive, one bind-mount flag pair per resolved mount in
resolver order, one environment flag pair per declared variable in
declaration order, the working-directory flag with the current directory, the
entrypoint-override pair exactly when an entrypoint is configured, the image
reference, and the user-supplied trailing arguments. -/
theorem C5_docker_args_order (script : Script) (args : List String)
    (isTerm : Bool) (env : OSEnv) (sha cwd : String) (resolved : List Mount)
    (hsha : (if needsSHA script.mounts = true then env.imageSHA else .ok "") = .ok sha)
    (hres : resolveMounts env script.mounts sha = .ok resolved)
    (hcwd : env.getwd = .ok cwd) :
    (buildDockerArgs script args isTerm env).result = .ok (
      ["run", "-i"] ++ (if isTerm then ["-t"] else [])
      ++ resolved.flatMap (fun m => ["-v", m.hostPath ++ ":" ++ m.sandboxPath])
      ++ script.env.flatMap (fun e => ["-e", e.name ++ "=" ++ e.value])
      ++ ["-w", cwd]
      ++ (if script.entrypoint ≠ "" then ["--entrypoint", script.entrypoint] else [])
      ++ [script.image] ++ args) := by
  cases hn : needsSHA script.mounts
  · rw [hn] at hsha
    rw [if_neg (by simp)] at hsha
    have hsha2 : sha = "" := by
      have := congrArg (fun x => match x with | Except.ok v => v | Except.error _ => "") hsha
      simpa using this.symm
    subst hsha2
    unfold buildDockerArgs
    rw [hn, if_neg (by simp)]
    exact buildRest_ok script args _ "" env cwd resolved hres hcwd
  · rw [hn] at hsha
    rw [if_pos rfl] at hsha
    unfold buildDockerArgs
    rw [hn, if_pos rfl, hsha]
    exact buildRest_ok script args _ sha env cwd resolved hres hcwd

/-- C5 witness: the claim instance with image alpine, entrypoint echo and
trailing argument hello. -/
theorem C5_docker_args_order_witness :
    (buildDockerArgs ⟨none, "alpine", "echo", [], []⟩ ["hello"] false
      ⟨.ok "/cwd", .ok "/home/u", .ok "/uc", true, .ok "/repo", .ok "d0"⟩).result =
      .ok ["run", "-i", "-w", "/cwd", "--entrypoint", "echo", "alpine", "hello"] := by
  have h := C5_docker_args_order ⟨none, "alpine", "echo", [], []⟩ ["hello"] false
    ⟨.ok "/cwd", .ok "/home/u", .ok "/uc", true, .ok "/repo", .ok "d0"⟩ "" "/cwd" []
    rfl rfl rfl
  exact h.trans (by decide)

/-- C7: buildDockerArgs performs the image-digest lookup exactly when some
declared mount references the cache directory through either token form. -/
theorem C7_sha_lookup_iff_cache_token (script : Script) (args : List String)
    (isTerm : Bool) (env : OSEnv) :
    (buildDockerArgs script args isTerm env).shaLookedUp = true ↔
      ∃ m ∈ script.mounts, hasCacheTok m.hostPath = true := by
  have hs : (buildDockerArgs script args isTerm env).shaLookedUp
      = needsSHA script.mounts := by
    unfold buildDockerArgs
    cases hn : needsSHA script.mounts
    · simp
    · cases h2 : env.imageSHA <;> simp [h2]
  rw [hs]
  unfold needsSHA
  rw [List.any_eq_true]

/-- C7 witness. -/
theorem C7_sha_lookup_iff_cache_token_witness :
    (buildDockerArgs ⟨none, "img", "", [⟨"{cacheDir}/p", "/s"⟩], []⟩ [] false
      ⟨.ok "/cwd", .ok "/h", .ok "/uc", true, .ok "/r", .ok "d0"⟩).shaLookedUp = true :=
  (C7_sha_lookup_iff_cache_token _ _ _ _).mpr
    ⟨⟨"{cacheDir}/p", "/s"⟩, by simp, by decide⟩

/-- C8: getImageSHA fails with the image-not-found error exactly when the
successful query output trims to the empty string, that is, when the output is
whitespace-only; otherwise it returns the trimmed output with a sha256 prefix
stripped when present; a failed query surfaces as a distinct query error. -/
theorem C8_image_sha (out : String) :
    (getImageSHA (.ok out) = .error .imageNotFound ↔ goTrimSpace out = "") ∧
    (goTrimSpace out = "" ↔ out.data.all goIsSpace = true) ∧
    (goTrimSpace out ≠ "" →
      getImageSHA (.ok out) = .ok (if goStartsWith (goTrimSpace out) "sha256:" = true
        then strDrop (goTrimSpace out) 7 else goTrimSpace out)) ∧
    (∀ e, getImageSHA (.error e) = .error (.queryFailed e)) := by
  have hred : getImageSHA (.ok out) =
      (if goTrimSpace out = "" then Except.error SHAErr.imageNotFound
       else .ok (if goStartsWith (goTrimSpace out) "sha256:" = true
         then strDrop (goTrimSpace out) 7 else goTrimSpace out)) := rfl
  refine ⟨?_, ?_, ?_, fun e => rfl⟩
  · rw [hred]
    by_cases h : goTrimSpace out = "" <;> simp [h]
  · rw [show goTrimSpace out = String.mk (trimSpaceL out.data) from rfl,
      string_mk_eq_empty_iff]
    exact trimSpaceL_eq_nil_iff out.data
  · intro h
    rw [hred, if_neg h]

/-- C8 witness: a query output with surrounding whitespace and a sha256
prefix yields the bare hex identifier. -/
theorem C8_image_sha_witness : getImageSHA (.ok " sha256:abc12\n") = .ok "abc12" := by
  have h := (C8_image_sha " sha256:abc12\n").2.2.1 (by decide)
  exact h.trans (by decide)

/-- C10 witness. -/
theorem C10_skip_unknown_entry_witness :
    untarRun "/d" [⟨"a", '6', "", 0⟩] = untarRun "/d" [] :=
  C10_skip_unknown_entry "/d" ⟨"a", '6', "", 0⟩ [] (by decide) (by decide)
    (by decide) (by decide)

/-- A successful pass through both substitution steps determines the
resolved mount. -/
theorem resolveOne_ok (env : OSEnv) (home sha : String) (m : Mount)
    (h1 h2 : String)
    (e1 : substCache env sha m.hostPath = .ok h1)
    (e2 : substGit env h1 = .ok h2) :
    resolveOne env home sha m = .ok ⟨expandHostTilde home h2,
      if expandSandboxTilde m.sandboxPath = "" then expandHostTilde home h2
      else expandSandboxTilde m.sandboxPath⟩ := by
  unfold resolveOne
  simp only [e1, e2]

/-- A mount without a cache token skips the cache step. -/
theorem substCache_skip (env : OSEnv) (sha host : String)
    (htok : hasCacheTok host = false) : substCache env sha host = .ok host := by
  unfold substCache
  rw [if_neg (by simp [htok])]

/-- A host path different from the git sentinel skips the git step. -/
theorem substGit_skip (env : OSEnv) (host : String)
    (hg : host ≠ "git.repoRoot(cwd)") : substGit env host = .ok host := by
  unfold substGit
  rw [if_neg hg]

/-- Resolution of a singleton mount list. -/
theorem resolveList_one (env : OSEnv) (home sha : String) (m r : Mount)
    (h : resolveOne env home sha m = .ok r) :
    resolveList env home sha [m] = .ok [r] := by
  unfold resolveList
  simp only [h]
  rfl

/-- C6: home-directory expansion in resolveMounts: a hostPath with a leading
tilde-slash resolves to the join of the home directory with the remainder and
a bare tilde to the home directory itself; a sandboxPath with a leading
tilde-slash is rewritten under the fixed in-container home /root and a bare
tilde becomes /root; a sandboxPath still empty afterwards defaults to the
resolved hostPath.  Concretely, hostPath ~/data with home /home/u gives
/home/u/data for both fields, and hostPath ~ gives the home directory for
both fields. -/
theorem C6_home_expansion (env : OSEnv) (cwd home sha : String) (m : Mount)
    (hcwd : env.getwd = .ok cwd) (hhome : env.userHomeDir = .ok home)
    (htok : hasCacheTok m.hostPath = false) :
    (goStartsWith m.hostPath "~/" = true →
      resolveMounts env [m] sha = .ok [⟨goJoinPath [home, strDrop m.hostPath 2],
        if expandSandboxTilde m.sandboxPath = ""
        then goJoinPath [home, strDrop m.hostPath 2]
        else expandSandboxTilde m.sandboxPath⟩]) ∧
    (m.hostPath = "~" →
      resolveMounts env [m] sha = .ok [⟨home,
        if expandSandboxTilde m.sandboxPath = "" then home
        else expandSandboxTilde m.sandboxPath⟩]) ∧
    (goStartsWith m.sandboxPath "~/" = true →
      expandSandboxTilde m.sandboxPath = "/root/" ++ strDrop m.sandboxPath 2) ∧
    (m.sandboxPath = "~" → expandSandboxTilde m.sandboxPath = "/root") ∧
    resolveMounts ⟨.ok "/cwd", .ok "/home/u", .ok "/uc", true, .ok "/repo", .ok ""⟩
      [⟨"~/data", ""⟩] "" = .ok [⟨"/home/u/data", "/home/u/data"⟩] ∧
    resolveMounts ⟨.ok "/cwd", .ok "/home/u", .ok "/uc", true, .ok "/repo", .ok ""⟩
      [⟨"~", ""⟩] "" = .ok [⟨"/home/u", "/home/u"⟩] := by
  refine ⟨?_, ?_, ?_, ?_, rfl, rfl⟩
  · intro h1
    unfold resolveMounts
    rw [hcwd, hhome]
    refine resolveList_one env home sha m _ ?_
    rw [resolveOne_ok env home sha m m.hostPath m.hostPath
      (substCache_skip env sha m.hostPath htok)
      (substGit_skip env m.hostPath (tilde_ne_gitlit h1))]
    unfold expandHostTilde
    rw [if_pos h1]
  · intro h1
    unfold resolveMounts
    rw [hcwd, hhome]
    refine resolveList_one env home sha m _ ?_
    rw [resolveOne_ok env home sha m m.hostPath m.hostPath
      (substCache_skip env sha m.hostPath htok)
      (substGit_skip env m.hostPath (by rw [h1]; decide))]
    unfold expandHostTilde
    rw [h1]
    rw [if_neg (by decide), if_pos rfl]
  · intro h1
    unfold expandSandboxTilde
    rw [if_pos h1]
  · intro h1
    unfold expandSandboxTilde
    rw [h1]
    rw [if_neg (by decide), if_pos rfl]

/-- C6 witness. -/
theorem C6_home_expansion_witness :
    resolveMounts ⟨.ok "/cwd", .ok "/home/u", .ok "/uc", true, .ok "/repo", .ok ""⟩
      [⟨"~/x", "~/y"⟩] "" = .ok [⟨"/home/u/x", "/root/y"⟩] := by
  have h := (C6_home_expansion
    ⟨.ok "/cwd", .ok "/home/u", .ok "/uc", true, .ok "/repo", .ok ""⟩
    "/cwd" "/home/u" "" ⟨"~/x", "~/y"⟩ rfl rfl (by decide)).1 (by decide)
  exact h.trans (by decide)

/-! ## Substring toolkit lemmas (towards resolver idempotence) -/

theorem pfx_iff (p : List Char) : ∀ s, pfxOf p s = true ↔ ∃ t, s = p ++ t := by
  induction p with
  | nil => intro s; simp [pfxOf]
  | cons a as ih =>
    intro s
    cases s with
    | nil => simp [pfxOf]
    | cons b bs =>
      show (decide (a = b) && pfxOf as bs) = true ↔ _
      rw [Bool.and_eq_true, decide_eq_true_iff, ih bs]
      constructor
      · rintro ⟨rfl, t, rfl⟩
        exact ⟨t, rfl⟩
      · rintro ⟨t, ht⟩
        rw [List.cons_append] at ht
        injection ht with h1 h2
        exact ⟨h1.symm, t, h2⟩

theorem substrP_cons (pat : List Char) (c : Char) (cs : List Char) :
    SubstrP pat (c :: cs) ↔ (∃ t, c :: cs = pat ++ t) ∨ SubstrP pat cs := by
  constructor
  · rintro ⟨p, q, hpq⟩
    cases p with
    | nil =>
      exact Or.inl ⟨q, by simpa using hpq⟩
    | cons x xs =>
      rw [List.cons_append, List.cons_append] at hpq
      injection hpq with h1 h2
      exact Or.inr ⟨xs, q, by simpa using h2⟩
  · rintro (⟨t, ht⟩ | ⟨p, q, hpq⟩)
    · exact ⟨[], t, by simpa using ht⟩
    · exact ⟨c :: p, q, by simp [hpq]⟩

theorem substr_iff (pat : List Char) : ∀ s, containsSub pat s = true ↔ SubstrP pat s := by
  intro s
  induction s with
  | nil =>
    show pfxOf pat [] = true ↔ _
    rw [pfx_iff]
    unfold SubstrP
    constructor
    · rintro ⟨t, ht⟩
      rcases List.append_eq_nil.mp ht.symm with ⟨h1, h2⟩
      exact ⟨[], [], by simp [h1]⟩
    · rintro ⟨p, q, hpq⟩
      rcases List.append_eq_nil.mp (List.append_eq_nil.mp hpq.symm).1 with ⟨h1, h2⟩
      exact ⟨[], by simp [h2]⟩
  | cons c cs ih =>
    show (pfxOf pat (c :: cs) || containsSub pat cs) = true ↔ _
    rw [Bool.or_eq_true, pfx_iff, ih, substrP_cons]

theorem substrP_mem {pat s : List Char} (h : SubstrP pat s) {a : Char} (ha : a ∈ pat) :
    a ∈ s := by
  obtain ⟨p, q, rfl⟩ := h
  simp [ha]

theorem substrP_within {pat g s : List Char} (h : SubstrP pat g)
    (hinf : ∃ x y, s = x ++ g ++ y) : SubstrP pat s := by
  obtain ⟨p, q, rfl⟩ := h
  obtain ⟨x, y, rfl⟩ := hinf
  exact ⟨x ++ p, q ++ y, by simp⟩

theorem substrP_drop {pat s : List Char} {n : Nat} (h : SubstrP pat (s.drop n)) :
    SubstrP pat s :=
  substrP_within h ⟨s.take n, [], by simp⟩

theorem substrP_of_append_left {u v s : List Char} (h : SubstrP (u ++ v) s) :
    SubstrP v s := by
  obtain ⟨p, q, rfl⟩ := h
  exact ⟨p ++ u, q, by simp⟩

theorem substrP_append_split {pat a b : List Char} (h : SubstrP pat (a ++ b)) :
    SubstrP pat a ∨ SubstrP pat b ∨
    ∃ x y, pat = x ++ y ∧ x ≠ [] ∧ y ≠ [] ∧ (∃ a0, a = a0 ++ x) ∧
      ∃ b0, b = y ++ b0 := by
  obtain ⟨p, q, hpq⟩ := h
  rw [List.append_assoc] at hpq
  rcases List.append_eq_append_iff.mp hpq with ⟨t, ht1, ht2⟩ | ⟨t, ht1, ht2⟩
  · -- p = a ++ t, b = t ++ (pat ++ q)
    exact Or.inr (Or.inl ⟨t, q, by rw [ht2, List.append_assoc]⟩)
  · -- a = p ++ t ∧ pat ++ q = t ++ b
    rcases List.append_eq_append_iff.mp ht2 with ⟨w, hw1, hw2⟩ | ⟨w, hw1, hw2⟩
    · -- t = pat ++ w ∧ q = w ++ b
      exact Or.inl ⟨p, w, by rw [ht1, hw1, List.append_assoc]⟩
    · -- pat = t ++ w ∧ b = w ++ q
      cases t with
      | nil =>
        have hw : pat = w := by simpa using hw1
        exact Or.inr (Or.inl ⟨[], q, by rw [hw2, hw]; simp⟩)
      | cons t0 ts =>
        cases w with
        | nil =>
          have hw : pat = t0 :: ts := by simpa using hw1
          exact Or.inl ⟨p, [], by rw [ht1, hw]; simp⟩
        | cons w0 ws =>
          exact Or.inr (Or.inr ⟨t0 :: ts, w0 :: ws, hw1, by simp, by simp,
            ⟨p, ht1⟩, ⟨q, hw2⟩⟩)

theorem not_substrP_of_not_mem {pat s : List Char} {a : Char} (ha : a ∈ pat)
    (hs : a ∉ s) : ¬ SubstrP pat s :=
  fun h => hs (substrP_mem h ha)

theorem pfx_head {a : Char} {as s : List Char} (h : pfxOf (a :: as) s = true) :
    s.head? = some a := by
  obtain ⟨t, rfl⟩ := (pfx_iff (a :: as) s).mp h
  rfl

theorem replaceAllGo_fuel (pat rep : List Char) :
    ∀ n m (s : List Char), s.length ≤ n → s.length ≤ m →
      replaceAllGo pat rep n s = replaceAllGo pat rep m s := by
  intro n
  induction n with
  | zero =>
    intro m s h1 _
    have hs : s = [] := List.eq_nil_of_length_eq_zero (Nat.le_zero.mp h1)
    subst hs
    cases m <;> rfl
  | succ n ih =>
    intro m s h1 h2
    cases s with
    | nil => cases m <;> rfl
    | cons c cs =>
      cases m with
      | zero => exact absurd h2 (by simp)
      | succ m' =>
        show (if pat ≠ [] ∧ pfxOf pat (c :: cs) = true
            then rep ++ replaceAllGo pat rep n ((c :: cs).drop pat.length)
            else c :: replaceAllGo pat rep n cs) =
          (if pat ≠ [] ∧ pfxOf pat (c :: cs) = true
            then rep ++ replaceAllGo pat rep m' ((c :: cs).drop pat.length)
            else c :: replaceAllGo pat rep m' cs)
        by_cases hc : pat ≠ [] ∧ pfxOf pat (c :: cs) = true
        · rw [if_pos hc, if_pos hc]
          have hplen : 0 < pat.length := List.length_pos.mpr hc.1
          have hlen : ((c :: cs).drop pat.length).length ≤ n := by
            rw [List.length_drop]
            simp only [List.length_cons] at h1 ⊢
            omega
          have hlen2 : ((c :: cs).drop pat.length).length ≤ m' := by
            rw [List.length_drop]
            simp only [List.length_cons] at h2 ⊢
            omega
          rw [ih _ _ hlen hlen2]
        · rw [if_neg hc, if_neg hc]
          have hlen : cs.length ≤ n := by
            simp only [List.length_cons] at h1
            omega
          have hlen2 : cs.length ≤ m' := by
            simp only [List.length_cons] at h2
            omega
          rw [ih _ _ hlen hlen2]

theorem replaceAllL_cons (pat rep : List Char) (hp : pat ≠ []) (c : Char)
    (cs : List Char) :
    replaceAllL pat rep (c :: cs) =
      if pfxOf pat (c :: cs) = true
      then rep ++ replaceAllL pat rep ((c :: cs).drop pat.length)
      else c :: replaceAllL pat rep cs := by
  unfold replaceAllL
  simp only [if_neg hp]
  rw [show replaceAllGo pat rep (c :: cs).length (c :: cs) =
      (if pat ≠ [] ∧ pfxOf pat (c :: cs) = true
        then rep ++ replaceAllGo pat rep cs.length ((c :: cs).drop pat.length)
        else c :: replaceAllGo pat rep cs.length cs) from rfl]
  by_cases hm : pfxOf pat (c :: cs) = true
  · rw [if_pos ⟨hp, hm⟩, if_pos hm]
    have hplen : 0 < pat.length := List.length_pos.mpr hp
    have hb : ((c :: cs).drop pat.length).length ≤ cs.length := by
      rw [List.length_drop]
      simp only [List.length_cons]
      omega
    rw [replaceAllGo_fuel pat rep cs.length ((c :: cs).drop pat.length).length _ hb le_rfl]
  · rw [if_neg (fun h => hm h.2), if_neg hm]

theorem replaceAllL_head (pat rep s : List Char) (hp : pat ≠ []) :
    replaceAllL pat rep (pat ++ s) = rep ++ replaceAllL pat rep s := by
  cases pat with
  | nil => exact absurd rfl hp
  | cons p0 ps =>
    rw [List.cons_append, replaceAllL_cons (p0 :: ps) rep (by simp) p0 (ps ++ s)]
    have hpfx : pfxOf (p0 :: ps) (p0 :: (ps ++ s)) = true :=
      (pfx_iff _ _).mpr ⟨s, by simp⟩
    rw [if_pos hpfx]
    have hdrop : (p0 :: (ps ++ s)).drop (p0 :: ps).length = s := by
      rw [show p0 :: (ps ++ s) = (p0 :: ps) ++ s by simp, List.drop_left]
    rw [hdrop]

theorem replaceAllL_no_occ (pat rep : List Char) :
    ∀ s, ¬ SubstrP pat s → replaceAllL pat rep s = s := by
  intro s
  induction s with
  | nil =>
    intro _
    unfold replaceAllL
    by_cases hp : pat = []
    · rw [if_pos hp]
    · rw [if_neg hp]; rfl
  | cons c cs ih =>
    intro hno
    by_cases hp : pat = []
    · unfold replaceAllL; rw [if_pos hp]
    · rw [replaceAllL_cons pat rep hp c cs]
      have hpfx : ¬ pfxOf pat (c :: cs) = true := by
        intro h
        obtain ⟨t, ht⟩ := (pfx_iff pat _).mp h
        exact hno ⟨[], t, by simpa using ht⟩
      rw [if_neg hpfx]
      have := ih (fun hsub => hno ((substrP_cons pat c cs).mpr (Or.inr hsub)))
      rw [this]

theorem replaceAllL_nil (pat rep : List Char) : replaceAllL pat rep [] = [] := by
  unfold replaceAllL
  by_cases hp : pat = []
  · rw [if_pos hp]
  · rw [if_neg hp]; rfl

theorem replaceAll_pfx_reflect (pat cd : List Char) (hcd : cd.head? = some '/') :
    ∀ n (s q : List Char), s.length ≤ n → (∀ c ∈ q, c ≠ '{' ∧ c ≠ '/') →
      pfxOf q (replaceAllL pat cd s) = true → pfxOf q s = true := by
  intro n
  induction n with
  | zero =>
    intro s q h1 _ hpfx
    have hs : s = [] := List.eq_nil_of_length_eq_zero (Nat.le_zero.mp h1)
    subst hs
    rw [replaceAllL_nil] at hpfx
    exact hpfx
  | succ n ih =>
    intro s q h1 hq hpfx
    cases s with
    | nil =>
      rw [replaceAllL_nil] at hpfx
      exact hpfx
    | cons c cs =>
      by_cases hp : pat = []
      · unfold replaceAllL at hpfx
        rw [if_pos hp] at hpfx
        exact hpfx
      · rw [replaceAllL_cons pat cd hp c cs] at hpfx
        by_cases hm : pfxOf pat (c :: cs) = true
        · rw [if_pos hm] at hpfx
          cases q with
          | nil => rfl
          | cons q0 qs =>
            exfalso
            obtain ⟨cd0, cdt, rfl⟩ : ∃ cd0 cdt, cd = cd0 :: cdt := by
              cases cd with
              | nil => exact absurd hcd (by simp)
              | cons x xs => exact ⟨x, xs, rfl⟩
            have hc0 : cd0 = '/' := by simpa using hcd
            have hq0 := pfx_head hpfx
            simp only [List.cons_append, List.head?_cons, Option.some.injEq] at hq0
            exact (hq q0 (by simp)).2 (hq0 ▸ hc0)
        · rw [if_neg hm] at hpfx
          cases q with
          | nil => rfl
          | cons q0 qs =>
            have hsplit : (decide (q0 = c) && pfxOf qs (replaceAllL pat cd cs)) = true :=
              hpfx
            rw [Bool.and_eq_true, decide_eq_true_iff] at hsplit
            obtain ⟨rfl, hqs⟩ := hsplit
            have hlen : cs.length ≤ n := by
              simp only [List.length_cons] at h1; omega
            have := ih cs qs hlen (fun x hx => hq x (by simp [hx])) hqs
            show (decide (q0 = q0) && pfxOf qs cs) = true
            simp [this]

theorem replaceAll_no_tok (pt cd : List Char)
    (hpt : ∀ c ∈ pt, c ≠ '{' ∧ c ≠ '/')
    (hcd1 : '{' ∉ cd) (hcd2 : cd.head? = some '/') :
    ∀ n (s : List Char), s.length ≤ n →
      ¬ SubstrP ('{' :: pt) (replaceAllL ('{' :: pt) cd s) := by
  intro n
  induction n with
  | zero =>
    intro s h1 hsub
    have hs : s = [] := List.eq_nil_of_length_eq_zero (Nat.le_zero.mp h1)
    subst hs
    obtain ⟨p, q, hpq⟩ := hsub
    have : replaceAllL ('{' :: pt) cd [] = [] := by
      unfold replaceAllL
      rw [if_neg (by simp)]
      rfl
    rw [this] at hpq
    exact absurd hpq.symm (by simp)
  | succ n ih =>
    intro s h1 hsub
    cases s with
    | nil =>
      obtain ⟨p, q, hpq⟩ := hsub
      have hz : replaceAllL ('{' :: pt) cd [] = [] := by
        unfold replaceAllL
        rw [if_neg (by simp)]
        rfl
      rw [hz] at hpq
      exact absurd hpq.symm (by simp)
    | cons c cs =>
      rw [replaceAllL_cons ('{' :: pt) cd (by simp) c cs] at hsub
      by_cases hm : pfxOf ('{' :: pt) (c :: cs) = true
      · rw [if_pos hm] at hsub
        rcases substrP_append_split hsub with hA | hB | ⟨x, y, hxy, hx, _, ⟨a0, ha⟩, _⟩
        · exact hcd1 (substrP_mem hA (by simp))
        · have hplen : 0 < ('{' :: pt).length := by simp
          have hlen : ((c :: cs).drop ('{' :: pt).length).length ≤ n := by
            rw [List.length_drop]
            simp only [List.length_cons] at h1 ⊢
            omega
          exact ih _ hlen hB
        · cases x with
          | nil => exact hx rfl
          | cons x0 xs =>
            have hx0 : x0 = '{' := by
              rw [List.cons_append] at hxy
              injection hxy with hh _
              exact hh.symm
            apply hcd1
            rw [ha, hx0]
            simp
      · rw [if_neg hm] at hsub
        rcases (substrP_cons ('{' :: pt) c _).mp hsub with ⟨t, ht⟩ | hB
        · rw [List.cons_append] at ht
          injection ht with hc1 hc2
          have hpfx : pfxOf pt (replaceAllL ('{' :: pt) cd cs) = true :=
            (pfx_iff _ _).mpr ⟨t, hc2⟩
          have hlen : cs.length ≤ n := by
            simp only [List.length_cons] at h1; omega
          have hrefl := replaceAll_pfx_reflect ('{' :: pt) cd hcd2 n cs pt hlen hpt hpfx
          apply hm
          show (decide (('{' : Char) = c) && pfxOf pt cs) = true
          rw [← hc1]
          simp [hrefl]
        · have hlen : cs.length ≤ n := by
            simp only [List.length_cons] at h1; omega
          exact ih cs hlen hB

theorem replaceAll_slash (pat cd : List Char) (hp : pat ≠ []) (hcd : '/' ∈ cd) :
    ∀ n (s : List Char), s.length ≤ n → SubstrP pat s →
      '/' ∈ replaceAllL pat cd s := by
  intro n
  induction n with
  | zero =>
    intro s h1 hsub
    have hs : s = [] := List.eq_nil_of_length_eq_zero (Nat.le_zero.mp h1)
    subst hs
    obtain ⟨p, q, hpq⟩ := hsub
    rcases List.append_eq_nil.mp (List.append_eq_nil.mp hpq.symm).1 with ⟨_, h2⟩
    exact absurd h2 hp
  | succ n ih =>
    intro s h1 hsub
    cases s with
    | nil =>
      obtain ⟨p, q, hpq⟩ := hsub
      rcases List.append_eq_nil.mp (List.append_eq_nil.mp hpq.symm).1 with ⟨_, h2⟩
      exact absurd h2 hp
    | cons c cs =>
      rw [replaceAllL_cons pat cd hp c cs]
      by_cases hm : pfxOf pat (c :: cs) = true
      · rw [if_pos hm]
        simp [hcd]
      · rw [if_neg hm]
        rcases (substrP_cons pat c cs).mp hsub with ⟨t, ht⟩ | hB
        · exact absurd ((pfx_iff pat _).mpr ⟨t, ht⟩) hm
        · have hlen : cs.length ≤ n := by
            simp only [List.length_cons] at h1; omega
          exact List.mem_cons_of_mem c (ih cs hlen hB)

/-! ## Split, clean-stack and clean lemmas -/

theorem intercalate_cons2 (sep a b : List Char) (l : List (List Char)) :
    List.intercalate sep (a :: b :: l) = a ++ sep ++ List.intercalate sep (b :: l) := by
  simp [List.intercalate, List.intersperse]

theorem substrP_intercalate {pat : List Char} (hns : '/' ∉ pat) (hne : pat ≠ []) :
    ∀ gs : List (List Char), SubstrP pat (List.intercalate ['/'] gs) →
      ∃ g ∈ gs, SubstrP pat g := by
  intro gs
  induction gs with
  | nil =>
    intro h
    obtain ⟨p, q, hpq⟩ := h
    have : List.intercalate ['/'] ([] : List (List Char)) = [] := by
      simp [List.intercalate]
    rw [this] at hpq
    rcases List.append_eq_nil.mp (List.append_eq_nil.mp hpq.symm).1 with ⟨_, h2⟩
    exact absurd h2 hne
  | cons g gs ih =>
    intro h
    cases gs with
    | nil =>
      have : List.intercalate ['/'] [g] = g := by simp [List.intercalate]
      rw [this] at h
      exact ⟨g, by simp, h⟩
    | cons g2 t =>
      rw [intercalate_cons2] at h
      rw [List.append_assoc] at h
      have hsh : ['/'] ++ List.intercalate ['/'] (g2 :: t) =
          '/' :: List.intercalate ['/'] (g2 :: t) := rfl
      rw [hsh] at h
      rcases substrP_append_split h with hA | hB | ⟨x, y, hxy, _, hy, _, ⟨b0, hb⟩⟩
      · exact ⟨g, by simp, hA⟩
      · rcases (substrP_cons pat '/' _).mp hB with ⟨t2, ht2⟩ | hC
        · exfalso
          cases pat with
          | nil => exact hne rfl
          | cons p0 pp =>
            rw [List.cons_append] at ht2
            injection ht2 with hh _
            exact hns (by rw [← hh]; simp)
        · obtain ⟨g', hg', hsubg⟩ := ih hC
          exact ⟨g', by simp [hg'], hsubg⟩
      · exfalso
        cases y with
        | nil => exact hy rfl
        | cons y0 ys =>
          rw [List.cons_append] at hb
          injection hb with hh _
          apply hns
          rw [hxy, ← hh]
          simp

theorem cleanStack_mem (rooted : Bool) :
    ∀ (comps st : List (List Char)) (x : List Char),
      x ∈ cleanStackR rooted st comps → x ∈ st ∨ x ∈ comps := by
  intro comps
  induction comps with
  | nil =>
    intro st x hx
    exact Or.inl hx
  | cons c cs ih =>
    intro st x hx
    unfold cleanStackR at hx
    by_cases h1 : c = [] ∨ c = ['.']
    · rw [if_pos h1] at hx
      rcases ih st x hx with h | h
      · exact Or.inl h
      · exact Or.inr (List.mem_cons_of_mem c h)
    · rw [if_neg h1] at hx
      by_cases h2 : c = ['.', '.']
      · rw [if_pos h2] at hx
        cases rooted with
        | true =>
          rw [if_pos rfl] at hx
          rcases ih st.tail x hx with h | h
          · exact Or.inl (List.mem_of_mem_tail h)
          · exact Or.inr (List.mem_cons_of_mem c h)
        | false =>
          rw [if_neg (by simp)] at hx
          cases st with
          | nil =>
            rcases ih _ x hx with h | h
            · have hx2 : x = ['.', '.'] := by simpa using h
              rw [hx2, ← h2]
              exact Or.inr (List.mem_cons_self c cs)
            · exact Or.inr (List.mem_cons_of_mem c h)
          | cons l st2 =>
            dsimp only at hx
            by_cases h3 : l = ['.', '.']
            · rw [if_pos h3] at hx
              rcases ih _ x hx with h | h
              · rcases List.mem_cons.mp h with h4 | h4
                · exact Or.inr (h4 ▸ List.mem_cons_self c cs)
                · exact Or.inl h4
              · exact Or.inr (List.mem_cons_of_mem c h)
            · rw [if_neg h3] at hx
              rcases ih st2 x hx with h | h
              · exact Or.inl (List.mem_cons_of_mem l h)
              · exact Or.inr (List.mem_cons_of_mem c h)
      · rw [if_neg h2] at hx
        rcases ih (c :: st) x hx with h | h
        · rcases List.mem_cons.mp h with h4 | h4
          · exact Or.inr (h4 ▸ List.mem_cons_self c cs)
          · exact Or.inl h4
        · exact Or.inr (List.mem_cons_of_mem c h)

theorem splitComps_head_pfx :
    ∀ (s : List Char) (g : List Char) (gs : List (List Char)),
      splitComps s = g :: gs → ∃ y, s = g ++ y := by
  intro s
  induction s with
  | nil =>
    intro g gs h
    rw [show splitComps [] = [[]] from rfl] at h
    injection h with h1 _
    exact ⟨[], by simp [← h1]⟩
  | cons c cs ih =>
    intro g gs h
    unfold splitComps at h
    by_cases hc : c = '/'
    · rw [if_pos hc] at h
      injection h with h1 _
      exact ⟨c :: cs, by simp [← h1]⟩
    · rw [if_neg hc] at h
      cases hsc : splitComps cs with
      | nil =>
        rw [hsc] at h
        injection h with h1 _
        exact ⟨cs, by simp [← h1]⟩
      | cons g0 gs0 =>
        rw [hsc] at h
        injection h with h1 h2
        obtain ⟨y, hy⟩ := ih g0 gs0 hsc
        exact ⟨y, by rw [← h1, List.cons_append, ← hy]⟩

theorem splitComps_part :
    ∀ (s : List Char) (g : List Char), g ∈ splitComps s →
      ∃ x y, s = x ++ g ++ y := by
  intro s
  induction s with
  | nil =>
    intro g hg
    have : g = [] := by simpa [splitComps] using hg
    exact ⟨[], [], by simp [this]⟩
  | cons c cs ih =>
    intro g hg
    unfold splitComps at hg
    by_cases hc : c = '/'
    · rw [if_pos hc] at hg
      rcases List.mem_cons.mp hg with h | h
      · exact ⟨[], c :: cs, by simp [h]⟩
      · obtain ⟨x, y, hxy⟩ := ih g h
        exact ⟨c :: x, y, by simp [hxy]⟩
    · rw [if_neg hc] at hg
      cases hsc : splitComps cs with
      | nil =>
        rw [hsc] at hg
        have : g = [c] := by simpa using hg
        exact ⟨[], cs, by simp [this]⟩
      | cons g0 gs0 =>
        rw [hsc] at hg
        rcases List.mem_cons.mp hg with h | h
        · obtain ⟨y, hy⟩ := splitComps_head_pfx cs g0 gs0 hsc
          exact ⟨[], y, by simp [h, hy]⟩
        · obtain ⟨x, y, hxy⟩ := ih g (by rw [hsc]; exact List.mem_cons_of_mem g0 h)
          exact ⟨c :: x, y, by simp [hxy]⟩

theorem cleanL_no_substr {pat : List Char} (hne : pat ≠ []) (hns : '/' ∉ pat)
    (hbr : '{' ∈ pat) {s : List Char} (hsub : ¬ SubstrP pat s) :
    ¬ SubstrP pat (cleanL s) := by
  intro hout
  cases s with
  | nil =>
    have : ('{' : Char) ∈ ['.'] := substrP_mem (by simpa [cleanL] using hout) hbr
    simp at this
  | cons c0 s2 =>
    unfold cleanL at hout
    dsimp only at hout
    cases hst : (cleanStackR (c0 == '/') [] (splitComps (c0 :: s2))).reverse with
    | nil =>
      rw [hst] at hout
      by_cases hr : (c0 == '/') = true
      · rw [hr] at hout
        have : ('{' : Char) ∈ ['/'] := substrP_mem (by simpa using hout) hbr
        simp at this
      · rw [Bool.not_eq_true] at hr
        rw [hr] at hout
        have : ('{' : Char) ∈ ['.'] := substrP_mem (by simpa using hout) hbr
        simp at this
    | cons g gs =>
      rw [hst] at hout
      have hout2 : SubstrP pat ((if (c0 == '/') = true then ['/'] else []) ++
          List.intercalate ['/'] (g :: gs)) := hout
      rcases substrP_append_split hout2 with hA | hB | ⟨x, y, hxy, hx, _, ⟨a0, ha⟩, _⟩
      · have hmem := substrP_mem hA hbr
        by_cases hr : (c0 == '/') = true <;> simp [hr] at hmem
      · obtain ⟨g', hg', hsubg⟩ := substrP_intercalate hns hne (g :: gs) hB
        have hgmem : g' ∈ cleanStackR (c0 == '/') [] (splitComps (c0 :: s2)) := by
          rw [← List.mem_reverse, hst]
          exact hg'
        rcases cleanStack_mem _ _ _ _ hgmem with h | h
        · simp at h
        · obtain ⟨x, y, hxy⟩ := splitComps_part _ g' h
          exact hsub (substrP_within hsubg ⟨x, y, hxy⟩)
      · by_cases hr : (c0 == '/') = true
        · have ha2 : ['/'] = a0 ++ x := by simpa [hr] using ha
          have hx1 : x = ['/'] := by
            cases a0 with
            | nil => simpa using ha2.symm
            | cons a1 as =>
              exfalso
              rw [List.cons_append] at ha2
              injection ha2 with _ h2
              exact hx (List.append_eq_nil.mp h2.symm).2
          apply hns
          rw [hxy, hx1]
          simp
        · rw [Bool.not_eq_true] at hr
          have ha2 : ([] : List Char) = a0 ++ x := by simpa [hr] using ha
          exact hx (List.append_eq_nil.mp ha2.symm).2

theorem cleanL_head_rooted {c0 : Char} (s : List Char) (hr : c0 = '/') :
    (cleanL (c0 :: s)).head? = some '/' := by
  unfold cleanL
  dsimp only
  have hb : (c0 == '/') = true := by simp [hr]
  cases hst : (cleanStackR (c0 == '/') [] (splitComps (c0 :: s))).reverse with
  | nil =>
    rw [hb]
    rfl
  | cons g gs =>
    rw [hb]
    rfl

/-! ## String-level bridging lemmas -/

theorem strData_append (a b : String) : (a ++ b).data = a.data ++ b.data := by
  cases a; cases b; rfl

theorem str_ne_empty_of_head {s : String} {c : Char} (h : s.data.head? = some c) :
    s ≠ "" := by
  intro he
  rw [he] at h
  have hz : ("" : String).data = [] := rfl
  rw [hz] at h
  exact absurd h (by simp)

theorem startsWith_tilde_head {s : String} (h : goStartsWith s "~/" = true) :
    s.data.head? = some '~' := by
  unfold goStartsWith at h
  have hd : ("~/" : String).data = '~' :: ['/'] := rfl
  rw [hd] at h
  exact pfx_head h

theorem not_tildepfx_of_head {s : String} (h : s.data.head? = some '/') :
    goStartsWith s "~/" = false := by
  cases hb : goStartsWith s "~/"
  · rfl
  · exact absurd ((startsWith_tilde_head hb).symm.trans h) (by decide)

theorem ne_tilde_of_head {s : String} (h : s.data.head? = some '/') : s ≠ "~" := by
  intro he
  rw [he] at h
  exact absurd h (by decide)

theorem ne_gitlit_of_head {s : String} (h : s.data.head? = some '/') :
    s ≠ "git.repoRoot(cwd)" := by
  intro he
  rw [he] at h
  exact absurd h (by decide)

theorem ne_gitlit_of_mem_slash {s : String} (h : '/' ∈ s.data) :
    s ≠ "git.repoRoot(cwd)" := by
  intro he
  rw [he] at h
  exact absurd h (by decide)

theorem ne_tilde_of_mem_slash {s : String} (h : '/' ∈ s.data) : s ≠ "~" := by
  intro he
  rw [he] at h
  exact absurd h (by decide)

theorem hasCacheTok_false_iff (s : String) :
    hasCacheTok s = false ↔ ¬ SubstrP ("{cacheDir}".data) s.data := by
  constructor
  · intro h hsub
    have hc : goContains s "{cacheDir}" = true := (substr_iff _ _).mpr hsub
    unfold hasCacheTok at h
    rw [hc] at h
    simp at h
  · intro h
    have h1 : goContains s "{cacheDir}" = false := by
      cases hc : goContains s "{cacheDir}"
      · rfl
      · exact absurd ((substr_iff _ _).mp hc) h
    have h2 : goContains s "${cacheDir}" = false := by
      cases hc : goContains s "${cacheDir}"
      · rfl
      · exfalso
        have hs2 := (substr_iff _ _).mp hc
        have hd : ("${cacheDir}" : String).data = ['$'] ++ "{cacheDir}".data := rfl
        rw [hd] at hs2
        exact h (substrP_of_append_left hs2)
    unfold hasCacheTok
    rw [h1, h2]
    rfl

theorem no_brace_no_tok {s : String} (h : '{' ∉ s.data) : hasCacheTok s = false :=
  (hasCacheTok_false_iff s).mpr (not_substrP_of_not_mem (by decide) h)

theorem substrP_append_slash_cons {pat a b : List Char} (hns : '/' ∉ pat)
    (h1 : ¬ SubstrP pat a) (h2 : ¬ SubstrP pat b) : ¬ SubstrP pat (a ++ '/' :: b) := by
  intro hsub
  rcases substrP_append_split hsub with hA | hB | ⟨x, y, hxy, hx, hy, _, ⟨b0, hb⟩⟩
  · exact h1 hA
  · rcases (substrP_cons pat '/' b).mp hB with ⟨t, ht⟩ | hC
    · cases pat with
      | nil => exact h1 ⟨[], a, by simp⟩
      | cons p0 pp =>
        rw [List.cons_append] at ht
        injection ht with hh _
        exact hns (by rw [← hh]; simp)
    · exact h2 hC
  · cases y with
    | nil => exact hy rfl
    | cons y0 ys =>
      rw [List.cons_append] at hb
      injection hb with hh _
      exact hns (by rw [hxy, ← hh]; simp)

theorem goJoin2_data (h r : String) (hne : h ≠ "") :
    goJoinPath [h, r] = String.mk (cleanL (h.data ++ '/' :: r.data)) := by
  unfold goJoinPath
  have hdw : ([h, r].dropWhile (fun e => e = "")) = [h, r] := by
    rw [List.dropWhile_cons_of_neg (by simpa using hne)]
  rw [hdw]
  have hint : List.intercalate ['/'] ([h, r].map String.data) =
      h.data ++ '/' :: r.data := by
    show List.intercalate ['/'] [h.data, r.data] = h.data ++ '/' :: r.data
    simp [List.intercalate, List.intersperse]
  show String.mk (cleanL (List.intercalate ['/'] ([h, r].map String.data))) = _
  rw [hint]

theorem goJoin2_head (h r : String) (hh : h.data.head? = some '/') :
    (goJoinPath [h, r]).data.head? = some '/' := by
  rw [goJoin2_data h r (str_ne_empty_of_head hh)]
  show (cleanL (h.data ++ '/' :: r.data)).head? = some '/'
  cases hd : h.data with
  | nil => rw [hd] at hh; exact absurd hh (by simp)
  | cons c0 t =>
    have hc0 : c0 = '/' := by
      rw [hd] at hh
      simpa using hh
    rw [List.cons_append]
    exact cleanL_head_rooted _ hc0

theorem goJoin2_no_tok (h r : String) (hne : h ≠ "")
    (h1 : ¬ SubstrP ("{cacheDir}".data) h.data)
    (h2 : ¬ SubstrP ("{cacheDir}".data) r.data) :
    ¬ SubstrP ("{cacheDir}".data) (goJoinPath [h, r]).data := by
  rw [goJoin2_data h r hne]
  show ¬ SubstrP _ (cleanL (h.data ++ '/' :: r.data))
  exact cleanL_no_substr (by decide) (by decide) (by decide)
    (substrP_append_slash_cons (by decide) h1 h2)

theorem expandHostTilde_id (home s : String) (h1 : goStartsWith s "~/" = false)
    (h2 : s ≠ "~") : expandHostTilde home s = s := by
  unfold expandHostTilde
  rw [if_neg (by simp [h1]), if_neg h2]

theorem expandSandboxTilde_id (s : String) (h1 : goStartsWith s "~/" = false)
    (h2 : s ≠ "~") : expandSandboxTilde s = s := by
  unfold expandSandboxTilde
  rw [if_neg (by simp [h1]), if_neg h2]

theorem root_slash_head (y : String) :
    (("/root/" ++ y) : String).data.head? = some '/' := by
  rw [strData_append]
  rfl

theorem expandSandboxTilde_idem (s : String) :
    expandSandboxTilde (expandSandboxTilde s) = expandSandboxTilde s := by
  by_cases h1 : goStartsWith s "~/" = true
  · have he : expandSandboxTilde s = "/root/" ++ strDrop s 2 := by
      unfold expandSandboxTilde
      rw [if_pos h1]
    rw [he]
    have hh := root_slash_head (strDrop s 2)
    exact expandSandboxTilde_id _ (not_tildepfx_of_head hh) (ne_tilde_of_head hh)
  · by_cases h2 : s = "~"
    · rw [h2]
      rfl
    · have he : expandSandboxTilde s = s := expandSandboxTilde_id s
        (by cases hb : goStartsWith s "~/" ; rfl ; exact absurd hb h1) h2
      rw [he, he]

theorem substCache_tok_shape (env : OSEnv) (sha host h1 : String)
    (ht : hasCacheTok host = true)
    (e1 : substCache env sha host = .ok h1) :
    sha ≠ "" ∧ ∃ uc, env.userCacheDir = .ok uc ∧ env.mkdirCacheOk = true ∧
      h1 = goReplaceAll (goReplaceAll host "{cacheDir}"
          (goJoinPath [uc, "clix", "cache", sha]))
        "${cacheDir}" (goJoinPath [uc, "clix", "cache", sha]) := by
  unfold substCache at e1
  rw [if_pos ht] at e1
  by_cases hsha : sha = ""
  · rw [if_pos hsha] at e1
    exact absurd e1 (by simp)
  · rw [if_neg hsha] at e1
    cases huc : env.userCacheDir with
    | error e =>
      rw [huc] at e1
      exact absurd e1 (by simp)
    | ok uc =>
      rw [huc] at e1
      cases hmk : env.mkdirCacheOk with
      | false =>
        rw [hmk] at e1
        exact absurd e1 (by simp)
      | true =>
        rw [hmk] at e1
        simp only [if_pos rfl] at e1
        injection e1 with he
        exact ⟨hsha, uc, rfl, rfl, he.symm⟩

theorem replaced_no_tok (host cd : String)
    (hcdh : cd.data.head? = some '/') (hcdb : '{' ∉ cd.data) :
    hasCacheTok (goReplaceAll (goReplaceAll host "{cacheDir}" cd) "${cacheDir}" cd)
      = false := by
  have hinner : ¬ SubstrP ("{cacheDir}".data)
      (replaceAllL ("{cacheDir}".data) cd.data host.data) := by
    have hd : ("{cacheDir}" : String).data = '{' :: tokTail := rfl
    rw [hd]
    exact replaceAll_no_tok tokTail cd.data (by decide) hcdb hcdh
      host.data.length host.data le_rfl
  have houter : replaceAllL ("${cacheDir}".data) cd.data
      (replaceAllL ("{cacheDir}".data) cd.data host.data) =
      replaceAllL ("{cacheDir}".data) cd.data host.data := by
    apply replaceAllL_no_occ
    intro hsub
    have hd : ("${cacheDir}" : String).data = ['$'] ++ "{cacheDir}".data := rfl
    rw [hd] at hsub
    exact hinner (substrP_of_append_left hsub)
  apply (hasCacheTok_false_iff _).mpr
  show ¬ SubstrP _ (replaceAllL ("${cacheDir}".data) cd.data
    (replaceAllL ("{cacheDir}".data) cd.data host.data))
  rw [houter]
  exact hinner

theorem replaced_slash (host cd : String) (ht : hasCacheTok host = true)
    (hcdh : cd.data.head? = some '/') :
    '/' ∈ (goReplaceAll (goReplaceAll host "{cacheDir}" cd) "${cacheDir}" cd).data := by
  have hsub1 : SubstrP ("{cacheDir}".data) host.data := by
    unfold hasCacheTok at ht
    rcases Bool.or_eq_true _ _ |>.mp ht with hc | hc
    · exact (substr_iff _ _).mp hc
    · have hs2 := (substr_iff _ _).mp hc
      have hd : ("${cacheDir}" : String).data = ['$'] ++ "{cacheDir}".data := rfl
      rw [hd] at hs2
      exact substrP_of_append_left hs2
  have hslash : '/' ∈ cd.data := by
    cases hd : cd.data with
    | nil => rw [hd] at hcdh; exact absurd hcdh (by simp)
    | cons c0 t =>
      have : c0 = '/' := by rw [hd] at hcdh; simpa using hcdh
      rw [this]
      simp
  have hinner : '/' ∈ replaceAllL ("{cacheDir}".data) cd.data host.data :=
    replaceAll_slash ("{cacheDir}".data) cd.data (by decide) hslash
      host.data.length host.data le_rfl hsub1
  show '/' ∈ replaceAllL ("${cacheDir}".data) cd.data
    (replaceAllL ("{cacheDir}".data) cd.data host.data)
  by_cases hocc : SubstrP ("${cacheDir}".data)
      (replaceAllL ("{cacheDir}".data) cd.data host.data)
  · exact replaceAll_slash _ cd.data (by decide) hslash _ _ le_rfl hocc
  · rw [replaceAllL_no_occ _ _ _ hocc]
    exact hinner

theorem bool_not_true {b : Bool} (h : ¬ b = true) : b = false := by
  cases b
  · rfl
  · exact absurd rfl h

/-- Inversion of a successful resolveOne pass. -/
theorem resolveOne_ok_inv (env : OSEnv) (home sha : String) (m r : Mount)
    (h : resolveOne env home sha m = .ok r) :
    ∃ h1 h2, substCache env sha m.hostPath = .ok h1 ∧ substGit env h1 = .ok h2 ∧
      r = ⟨expandHostTilde home h2,
        if expandSandboxTilde m.sandboxPath = "" then expandHostTilde home h2
        else expandSandboxTilde m.sandboxPath⟩ := by
  unfold resolveOne at h
  cases e1 : substCache env sha m.hostPath with
  | error e =>
    rw [e1] at h
    exact absurd h (by simp)
  | ok v =>
    rw [e1] at h
    dsimp only at h
    cases e2 : substGit env v with
    | error e =>
      rw [e2] at h
      exact absurd h (by simp)
    | ok w =>
      rw [e2] at h
      dsimp only at h
      injection h with h
      exact ⟨v, w, rfl, e2, h.symm⟩

/-- The heart of idempotence: a mount produced by a successful resolution pass
under a sane environment is a fixed point of resolution. -/
theorem resolveOne_stable (env : OSEnv) (home sha : String) (m r : Mount)
    (hh1 : home.data.head? = some '/') (hh2 : '{' ∉ home.data)
    (hcd : ∀ uc, env.userCacheDir = .ok uc →
      (goJoinPath [uc, "clix", "cache", sha]).data.head? = some '/' ∧
      '{' ∉ (goJoinPath [uc, "clix", "cache", sha]).data)
    (hg : ∀ g, env.gitRootAtCwd = .ok g → '{' ∉ g.data ∧ g ≠ "git.repoRoot(cwd)" ∧
      goStartsWith g "~/" = false ∧ g ≠ "~")
    (h : resolveOne env home sha m = .ok r) :
    resolveOne env home sha r = .ok r := by
  obtain ⟨h1, h2, e1, e2, hr⟩ := resolveOne_ok_inv env home sha m r h
  have H1 : hasCacheTok h1 = false := by
    by_cases ht : hasCacheTok m.hostPath = true
    · obtain ⟨hsha, uc, huc, hmk, h1eq⟩ := substCache_tok_shape env sha m.hostPath h1 ht e1
      obtain ⟨hcdh, hcdb⟩ := hcd uc huc
      rw [h1eq]
      exact replaced_no_tok m.hostPath _ hcdh hcdb
    · have h1eq : h1 = m.hostPath := by
        rw [substCache_skip env sha m.hostPath (bool_not_true ht)] at e1
        injection e1 with he
        exact he.symm
      rw [h1eq]
      exact bool_not_true ht
  have H1slash : hasCacheTok m.hostPath = true → '/' ∈ h1.data := by
    intro ht
    obtain ⟨hsha, uc, huc, hmk, h1eq⟩ := substCache_tok_shape env sha m.hostPath h1 ht e1
    obtain ⟨hcdh, _⟩ := hcd uc huc
    rw [h1eq]
    exact replaced_slash m.hostPath _ ht hcdh
  have H2 : hasCacheTok h2 = false ∧ h2 ≠ "git.repoRoot(cwd)" := by
    by_cases hgit : h1 = "git.repoRoot(cwd)"
    · have e2p := e2
      unfold substGit at e2p
      rw [if_pos hgit] at e2p
      cases hge : env.gitRootAtCwd with
      | error e =>
        rw [hge] at e2p
        exact absurd e2p (by simp)
      | ok g =>
        rw [hge] at e2p
        injection e2p with he
        obtain ⟨hgb, hgl, _, _⟩ := hg g hge
        rw [← he]
        exact ⟨no_brace_no_tok hgb, hgl⟩
    · have h2eq : h2 = h1 := by
        rw [substGit_skip env h1 hgit] at e2
        injection e2 with he
        exact he.symm
      rw [h2eq]
      exact ⟨H1, hgit⟩
  have H3 : hasCacheTok (expandHostTilde home h2) = false ∧
      expandHostTilde home h2 ≠ "git.repoRoot(cwd)" ∧
      goStartsWith (expandHostTilde home h2) "~/" = false ∧
      expandHostTilde home h2 ≠ "~" := by
    by_cases htl : goStartsWith h2 "~/" = true
    · have he : expandHostTilde home h2 = goJoinPath [home, strDrop h2 2] := by
        unfold expandHostTilde
        rw [if_pos htl]
      rw [he]
      have hK1 : (goJoinPath [home, strDrop h2 2]).data.head? = some '/' :=
        goJoin2_head home _ hh1
      refine ⟨?_, ne_gitlit_of_head hK1, not_tildepfx_of_head hK1,
        ne_tilde_of_head hK1⟩
      apply (hasCacheTok_false_iff _).mpr
      apply goJoin2_no_tok home _ (str_ne_empty_of_head hh1)
      · exact not_substrP_of_not_mem (by decide) hh2
      · intro hsub
        have hs2 : SubstrP ("{cacheDir}".data) h2.data := substrP_drop hsub
        exact (hasCacheTok_false_iff h2).mp H2.1 hs2
    · by_cases hte : h2 = "~"
      · have he : expandHostTilde home h2 = home := by
          unfold expandHostTilde
          rw [if_neg (by simp [bool_not_true htl]), if_pos hte]
        rw [he]
        exact ⟨no_brace_no_tok hh2, ne_gitlit_of_head hh1, not_tildepfx_of_head hh1,
          ne_tilde_of_head hh1⟩
      · have he : expandHostTilde home h2 = h2 :=
          expandHostTilde_id home h2 (bool_not_true htl) hte
        rw [he]
        exact ⟨H2.1, H2.2, bool_not_true htl, hte⟩
  have Q1 : expandSandboxTilde (if expandSandboxTilde m.sandboxPath = ""
        then expandHostTilde home h2 else expandSandboxTilde m.sandboxPath) =
      (if expandSandboxTilde m.sandboxPath = "" then expandHostTilde home h2
        else expandSandboxTilde m.sandboxPath) := by
    by_cases hsb : expandSandboxTilde m.sandboxPath = ""
    · rw [if_pos hsb]
      exact expandSandboxTilde_id _ H3.2.2.1 H3.2.2.2
    · rw [if_neg hsb]
      exact expandSandboxTilde_idem m.sandboxPath
  rw [hr]
  rw [resolveOne_ok env home sha
    ⟨expandHostTilde home h2,
      if expandSandboxTilde m.sandboxPath = "" then expandHostTilde home h2
      else expandSandboxTilde m.sandboxPath⟩
    (expandHostTilde home h2) (expandHostTilde home h2)
    (substCache_skip env sha _ H3.1) (substGit_skip env _ H3.2.1)]
  dsimp only
  rw [Q1]
  have hid : expandHostTilde home (expandHostTilde home h2) = expandHostTilde home h2 :=
    expandHostTilde_id home _ H3.2.2.1 H3.2.2.2
  rw [hid]
  by_cases hsb : expandSandboxTilde m.sandboxPath = ""
  · rw [if_pos hsb, ite_self]
  · rw [if_neg hsb, if_neg hsb]

/-- Inversion of a successful resolveList pass: outputs correspond to inputs
pointwise and in order. -/
theorem resolveList_inv (env : OSEnv) (home sha : String) :
    ∀ (ms rs : List Mount), resolveList env home sha ms = .ok rs →
      List.Forall₂ (fun m r => resolveOne env home sha m = .ok r) ms rs := by
  intro ms
  induction ms with
  | nil =>
    intro rs h
    unfold resolveList at h
    injection h with he
    exact he ▸ List.Forall₂.nil
  | cons m ms ih =>
    intro rs h
    unfold resolveList at h
    cases er : resolveOne env home sha m with
    | error e =>
      rw [er] at h
      exact absurd h (by simp)
    | ok r =>
      rw [er] at h
      dsimp only at h
      cases el : resolveList env home sha ms with
      | error e =>
        rw [el] at h
        exact absurd h (by simp)
      | ok rs2 =>
        rw [el] at h
        dsimp only at h
        injection h with he
        exact he ▸ List.Forall₂.cons er (ih rs2 el)

/-- Pointwise successful resolution reassembles into a successful list pass. -/
theorem resolveList_of_forall (env : OSEnv) (home sha : String)
    (ms rs : List Mount)
    (h : List.Forall₂ (fun m r => resolveOne env home sha m = .ok r) ms rs) :
    resolveList env home sha ms = .ok rs := by
  induction h with
  | nil => rfl
  | cons h1 h2 ih =>
    unfold resolveList
    simp only [h1, ih]

/-- Lists of resolved mounts are fixed points of resolveList under a sane
environment. -/
theorem resolveList_stable (env : OSEnv) (home sha : String)
    (hh1 : home.data.head? = some '/') (hh2 : '{' ∉ home.data)
    (hcd : ∀ uc, env.userCacheDir = .ok uc →
      (goJoinPath [uc, "clix", "cache", sha]).data.head? = some '/' ∧
      '{' ∉ (goJoinPath [uc, "clix", "cache", sha]).data)
    (hg : ∀ g, env.gitRootAtCwd = .ok g → '{' ∉ g.data ∧ g ≠ "git.repoRoot(cwd)" ∧
      goStartsWith g "~/" = false ∧ g ≠ "~")
    (ms rs : List Mount) (h : resolveList env home sha ms = .ok rs) :
    resolveList env home sha rs = .ok rs := by
  have hf := resolveList_inv env home sha ms rs h
  apply resolveList_of_forall
  clear h
  induction hf with
  | nil => exact List.Forall₂.nil
  | cons h1 h2 ih =>
    exact List.Forall₂.cons (resolveOne_stable env home sha _ _ hh1 hh2 hcd hg h1) ih

/-- C9: a successful resolveMounts returns exactly one output mount per input
mount, in the same order (pointwise correspondence through resolveOne, no
deduplication even for duplicate inputs), and under a sane operating-system
environment resolution is idempotent: resolving the output again with the same
digest returns it unchanged. -/
theorem C9_resolve_order_and_idempotent (env : OSEnv) (mounts rs : List Mount)
    (sha : String) (hsane : SaneEnv env sha)
    (h : resolveMounts env mounts sha = .ok rs) :
    rs.length = mounts.length ∧
    (∃ cwd home, env.getwd = .ok cwd ∧ env.userHomeDir = .ok home ∧
      List.Forall₂ (fun m r => resolveOne env home sha m = .ok r) mounts rs) ∧
    resolveMounts env rs sha = .ok rs := by
  unfold resolveMounts at h ⊢
  cases hcwd : env.getwd with
  | error e =>
    rw [hcwd] at h
    exact absurd h (by simp)
  | ok cwd =>
    rw [hcwd] at h
    dsimp only at h ⊢
    cases hhome : env.userHomeDir with
    | error e =>
      rw [hhome] at h
      exact absurd h (by simp)
    | ok home =>
      rw [hhome] at h
      dsimp only at h ⊢
      obtain ⟨hh1, hh2⟩ := hsane.1 home hhome
      have hf := resolveList_inv env home sha mounts rs h
      exact ⟨(List.Forall₂.length_eq hf).symm, ⟨cwd, home, rfl, rfl, hf⟩,
        resolveList_stable env home sha hh1 hh2 hsane.2.1 hsane.2.2 mounts rs h⟩

/-- C9 witness: a mount list exercising home expansion, the cache token, the
git sentinel and duplicate entries resolves to one output per input and is a
fixed point of a second resolution pass. -/
theorem C9_resolve_order_and_idempotent_witness :
    resolveMounts ⟨.ok "/cwd", .ok "/home/u", .ok "/uc", true, .ok "/repo", .ok "d0"⟩
      [⟨"~/data", ""⟩, ⟨"{cacheDir}/python", "~/y"⟩, ⟨"git.repoRoot(cwd)", ""⟩,
        ⟨"/a", "/a"⟩, ⟨"/a", "/a"⟩] "d0" =
      .ok [⟨"/home/u/data", "/home/u/data"⟩, ⟨"/uc/clix/cache/d0/python", "/root/y"⟩,
        ⟨"/repo", "/repo"⟩, ⟨"/a", "/a"⟩, ⟨"/a", "/a"⟩] ∧
    resolveMounts ⟨.ok "/cwd", .ok "/home/u", .ok "/uc", true, .ok "/repo", .ok "d0"⟩
      [⟨"/home/u/data", "/home/u/data"⟩, ⟨"/uc/clix/cache/d0/python", "/root/y"⟩,
        ⟨"/repo", "/repo"⟩, ⟨"/a", "/a"⟩, ⟨"/a", "/a"⟩] "d0" =
      .ok [⟨"/home/u/data", "/home/u/data"⟩, ⟨"/uc/clix/cache/d0/python", "/root/y"⟩,
        ⟨"/repo", "/repo"⟩, ⟨"/a", "/a"⟩, ⟨"/a", "/a"⟩] := by
  have hsane : SaneEnv
      ⟨.ok "/cwd", .ok "/home/u", .ok "/uc", true, .ok "/repo", .ok "d0"⟩ "d0" := by
    refine ⟨?_, ?_, ?_⟩ <;> (intro x hx; injection hx with he; subst he) <;> decide
  have h := C9_resolve_order_and_idempotent
    ⟨.ok "/cwd", .ok "/home/u", .ok "/uc", true, .ok "/repo", .ok "d0"⟩
    [⟨"~/data", ""⟩, ⟨"{cacheDir}/python", "~/y"⟩, ⟨"git.repoRoot(cwd)", ""⟩,
      ⟨"/a", "/a"⟩, ⟨"/a", "/a"⟩]
    [⟨"/home/u/data", "/home/u/data"⟩, ⟨"/uc/clix/cache/d0/python", "/root/y"⟩,
      ⟨"/repo", "/repo"⟩, ⟨"/a", "/a"⟩, ⟨"/a", "/a"⟩] "d0" hsane rfl
  exact ⟨rfl, h.2.2⟩

end Clix
